import Mathlib

/-!
A verification development for the `WorldModel` component of `bmpc-jax`
(`src/bmpc_jax/world_model.py`), shallowly embedded over exact real
arithmetic (`ℝ` in place of IEEE floats; "within floating tolerance"
statements become exact).

Modelling conventions:
* Arrays are `List ℝ`; a JAX pytree of arrays is flattened to its list of
  leaves, `List (List ℝ)`.
* A PRNG key is modelled by the stream of scalar variates it generates,
  `Key := ℕ → ℝ`; `jax.random.split` derives sub-streams by index
  interleaving (the only facts used are that sub-keys are a deterministic
  function of the parent key, its index and the split arity).
* Head parameters are opaque numeric structures; we flatten them to
  `List ℝ` and never inspect them.
* The flax modules (`NormedLinear` stacks, `Ensemble`), the helpers
  `simnorm`, `symlog`, `two_hot_inv` from `bmpc_jax.common`, and the
  `tensorflow_probability` Gaussian are external to
  `src/bmpc_jax/world_model.py`; where their behaviour decides a claim
  they are modelled from the spec (see the individual doc comments).
-/

namespace BMPC

noncomputable section

/-- A PRNG key, modelled by the stream of variates it generates. -/
def Key : Type := ℕ → ℝ

/-- `split k n i` is the `i`-th of the `n` sub-keys that
`jax.random.split(k, n)` produces: a deterministic function of the parent
key, the arity and the index. -/
def split (k : Key) (n i : ℕ) : Key := fun j => k (i + n * j)

/-- Opaque nested numeric parameter structure, flattened to its leaves. -/
abbrev Params : Type := List ℝ

/-- An observation pytree, flattened to its list of array leaves. -/
abbrev Obs : Type := List (List ℝ)

/-- `flax.training.train_state.TrainState`: an apply function plus the
current parameters.  The optimizer chain is external to every claim and
is not modelled. -/
structure TrainState (F : Type) where
  apply_fn : F
  params : Params

/-- Modelled from the spec: the per-group softmax.  `softmax xs` maps
`x_i` to `exp x_i / Σ_j exp x_j`. -/
def softmax (xs : List ℝ) : List ℝ :=
  (xs.map Real.exp).map (fun e => e / (xs.map Real.exp).sum)

/-- Modelled from the spec (§4.2, `bmpc_jax.common.activations.simnorm`
is not under `src/`): the simplex projector partitions the vector into
consecutive groups of `S` entries, applies softmax within each group, and
re-concatenates in the original order. -/
def simnorm (S : ℕ) (xs : List ℝ) : List ℝ :=
  if S = 0 ∨ xs = [] then xs
  else softmax (xs.take S) ++ simnorm S (xs.drop S)
termination_by xs.length
decreasing_by
  rename_i h
  push_neg at h
  have h1 : 0 < xs.length := List.length_pos.mpr h.2
  have h2 : 0 < S := Nat.pos_of_ne_zero h.1
  simp only [List.length_drop]
  omega

/-- Modelled from the spec (glossary; `bmpc_jax.common.util.symlog` is
not under `src/`): the signed logarithmic compression
`sign(x) · log(1 + |x|)`. -/
def symlog (x : ℝ) : ℝ := Real.sign x * Real.log (1 + |x|)

/-- Modelled from the spec: the inverse of `symlog`,
`sign(x) · (exp |x| - 1)`. -/
def symexp (x : ℝ) : ℝ := Real.sign x * (Real.exp |x| - 1)

/-- `num_bins` equally spaced points from `lo` to `hi`
(`jnp.linspace`). -/
def linspace (lo hi : ℝ) (n : ℕ) : List ℝ :=
  (List.range n).map (fun i : ℕ => lo + (hi - lo) * (i : ℝ) / ((n : ℝ) - 1))

/-- Modelled from the spec (§4.1, `bmpc_jax.common.util.two_hot_inv` is
not under `src/`): the distributional codec's decoder.  Softmax the
logits, take the probability-weighted sum of `num_bins` equally spaced
bin centers covering the log-compressed interval
`[symlog lo, symlog hi]`, and map back to linear scale with the inverse
compression `symexp`. -/
def two_hot_inv (logits : List ℝ) (lo hi : ℝ) (nb : ℕ) : ℝ :=
  symexp ((List.zipWith (· * ·) (softmax logits)
    (linspace (symlog lo) (symlog hi) nb)).sum)

/-- `world_model.py` line 18. -/
def MIN_LOG_STD : ℝ := -5

/-- `world_model.py` line 19. -/
def MAX_LOG_STD : ℝ := 1

/-- Elementwise `jnp.clip(x, -1, 1)` on one coordinate. -/
def clip1 (x : ℝ) : ℝ := min 1 (max (-1) x)

/-- Modelled from the spec: log-density of a scalar Gaussian. -/
def normalLogPdf (μ σ x : ℝ) : ℝ :=
  -(Real.log (σ * Real.sqrt (2 * Real.pi)) + (x - μ) ^ 2 / (2 * σ ^ 2))

/-- Modelled from the spec (`tfd.MultivariateNormalDiag(...).log_prob` is
an external library): the joint log-density of a diagonal-covariance
Gaussian, the sum of the per-coordinate log-densities. -/
def mvnDiagLogPdf : List ℝ → List ℝ → List ℝ → ℝ
  | μ :: μs, σ :: σs, x :: xs => normalLogPdf μ σ x + mvnDiagLogPdf μs σs xs
  | _, _, _ => 0

/-- Modelled from the spec (`tfd.MultivariateNormalDiag(...).sample` is
an external library): reparameterized sampling `mean + std ⊙ ε` where
the key supplies the standard-normal variates `ε`. -/
def gaussSample (mean std : List ℝ) (key : Key) : List ℝ :=
  (List.range mean.length).map (fun i => mean.getD i 0 + std.getD i 0 * key i)

/-- The six head `TrainState`s plus the scalar configuration,
`world_model.py` lines 22-41. -/
structure WorldModel where
  encoder : TrainState (Params → Obs → Key → List ℝ)
  dynamics_model : TrainState (Params → List ℝ → List ℝ)
  reward_model : TrainState (Params → List ℝ → List ℝ)
  policy_model : TrainState (Params → List ℝ → List ℝ)
  value_model : TrainState (Params → List ℝ → Key → List (List ℝ))
  target_value_model : TrainState (Params → List ℝ → Key → List (List ℝ))
  continue_model : Option (TrainState (Params → List ℝ → List ℝ))
  action_dim : ℕ
  latent_dim : ℕ
  simnorm_dim : ℕ
  num_value_nets : ℕ
  num_bins : ℕ
  symlog_min : ℝ
  symlog_max : ℝ
  predict_continues : Bool
  symlog_obs : Bool

/-- Modelled from the spec: the flax modules built inside
`WorldModel.create` (lines 73-77, 90-96, 109-117, 130-147, 165-169) are
`NormedLinear`/`Dense`/`Ensemble` stacks whose definitions are not under
`src/`; each is abstracted to its `init` function (from PRNG key(s) to
initial parameters) and its `apply` function.  The value ensemble's
`init` consumes a parameter key and a dropout key (line 151), and its
`apply` consumes a dropout key and returns the per-member logits. -/
structure HeadModules where
  dynamicsApply : Params → List ℝ → List ℝ
  dynamicsInit : Key → Params
  rewardApply : Params → List ℝ → List ℝ
  rewardInit : Key → Params
  policyApply : Params → List ℝ → List ℝ
  policyInit : Key → Params
  valueApply : Params → List ℝ → Key → List (List ℝ)
  valueInit : Key → Key → Params
  continueApply : Params → List ℝ → List ℝ
  continueInit : Key → Params

/-- `WorldModel.create`, lines 43-251.  The root key is split into five
sub-keys in the fixed order dynamics, reward, value, policy, continue
(lines 68-70); the value key is further split into a parameter key and a
dropout key (line 129); the target value head receives a deep copy of
the value head's freshly initialized parameters (lines 159-162); the
continue head is built only when `predict_continues` (lines 164-181).
The Python body contains no `raise` and no validation of the
configuration, so the error channel of the result is never used; the
`tabulate` branch only prints and is out of scope, and the optimizer
chains (`optax`) are not modelled. -/
def WorldModel.create
    (action_dim : ℕ)
    (encoder : TrainState (Params → Obs → Key → List ℝ))
    (latent_dim : ℕ)
    (value_dropout : ℝ)
    (num_value_nets : ℕ)
    (num_bins : ℕ)
    (symlog_min : ℝ)
    (symlog_max : ℝ)
    (simnorm_dim : ℕ)
    (predict_continues : Bool)
    (symlog_obs : Bool)
    (learning_rate : ℝ)
    (max_grad_norm : ℝ)
    (mods : HeadModules)
    (key : Key) : Except String WorldModel :=
  let dynamics_key := split key 5 0
  let reward_key := split key 5 1
  let value_key := split key 5 2
  let policy_key := split key 5 3
  let continue_key := split key 5 4
  let dynamics_model : TrainState (Params → List ℝ → List ℝ) :=
    ⟨mods.dynamicsApply, mods.dynamicsInit dynamics_key⟩
  let reward_model : TrainState (Params → List ℝ → List ℝ) :=
    ⟨mods.rewardApply, mods.rewardInit reward_key⟩
  let policy_model : TrainState (Params → List ℝ → List ℝ) :=
    ⟨mods.policyApply, mods.policyInit policy_key⟩
  let value_param_key := split value_key 2 0
  let value_dropout_key := split value_key 2 1
  let value_model : TrainState (Params → List ℝ → Key → List (List ℝ)) :=
    ⟨mods.valueApply, mods.valueInit value_param_key value_dropout_key⟩
  let target_value_model : TrainState (Params → List ℝ → Key → List (List ℝ)) :=
    ⟨mods.valueApply, value_model.params⟩
  let continue_model : Option (TrainState (Params → List ℝ → List ℝ)) :=
    if predict_continues then
      some ⟨mods.continueApply, mods.continueInit continue_key⟩
    else none
  .ok
    { encoder := encoder
      dynamics_model := dynamics_model
      reward_model := reward_model
      policy_model := policy_model
      value_model := value_model
      target_value_model := target_value_model
      continue_model := continue_model
      action_dim := action_dim
      latent_dim := latent_dim
      simnorm_dim := simnorm_dim
      num_value_nets := num_value_nets
      num_bins := num_bins
      symlog_min := symlog_min
      symlog_max := symlog_max
      predict_continues := predict_continues
      symlog_obs := symlog_obs }

/-- `WorldModel.encode`, lines 253-258: optionally symlog every leaf of
the observation, apply the encoder (the key drives its internal
dropout), then the simplex projector with group size `simnorm_dim`. -/
def WorldModel.encode (m : WorldModel) (obs : Obs) (params : Params)
    (key : Key) : List ℝ :=
  let obs' := if m.symlog_obs then obs.map (List.map symlog) else obs
  simnorm m.simnorm_dim (m.encoder.apply_fn params obs' key)

/-- `WorldModel.next`, lines 260-265: concatenate latent and action,
apply the dynamics head, then the simplex projector. -/
def WorldModel.next (m : WorldModel) (z a : List ℝ) (params : Params) :
    List ℝ :=
  simnorm m.simnorm_dim (m.dynamics_model.apply_fn params (z ++ a))

/-- `WorldModel.reward`, lines 267-275: concatenate latent and action,
apply the reward head for logits, decode with the codec at the model's
fixed `(symlog_min, symlog_max, num_bins)`, return both. -/
def WorldModel.reward (m : WorldModel) (z a : List ℝ) (params : Params) :
    ℝ × List ℝ :=
  let logits := m.reward_model.apply_fn params (z ++ a)
  (two_hot_inv logits m.symlog_min m.symlog_max m.num_bins, logits)

/-- The tuple returned by `sample_actions` (line 299). -/
structure PolicyOutput where
  action : List ℝ
  mean : List ℝ
  log_std : List ℝ
  log_prob : ℝ

/-- The raw policy head output (line 287). -/
def WorldModel.policyRaw (m : WorldModel) (z : List ℝ) (params : Params) :
    List ℝ :=
  m.policy_model.apply_fn params z

/-- First half of the policy output, tanh-squashed (lines 286-289).
`jnp.split(·, 2)` yields two halves of length `len / 2`. -/
def WorldModel.policyMean (m : WorldModel) (z : List ℝ) (params : Params) :
    List ℝ :=
  ((m.policyRaw z params).take ((m.policyRaw z params).length / 2)).map
    Real.tanh

/-- Second half of the policy output, rescaled from tanh range into
`[MIN_LOG_STD, MAX_LOG_STD]` (lines 290-291). -/
def WorldModel.policyLogStd (m : WorldModel) (z : List ℝ)
    (params : Params) : List ℝ :=
  ((m.policyRaw z params).drop ((m.policyRaw z params).length / 2)).map
    (fun l => MIN_LOG_STD +
      (MAX_LOG_STD - MIN_LOG_STD) * (0.5 * (Real.tanh l + 1)))

/-- The scaled standard deviation `std_scale * exp log_std`
(line 292). -/
def WorldModel.policyStd (m : WorldModel) (z : List ℝ) (params : Params)
    (std_scale : ℝ) : List ℝ :=
  (m.policyLogStd z params).map (fun l => std_scale * Real.exp l)

/-- The pre-clip Gaussian sample (line 296). -/
def WorldModel.preclipSample (m : WorldModel) (z : List ℝ)
    (params : Params) (std_scale : ℝ) (key : Key) : List ℝ :=
  gaussSample (m.policyMean z params) (m.policyStd z params std_scale) key

/-- `WorldModel.sample_actions`, lines 277-299: squashed-Gaussian policy
sampling.  The log-probability is the Gaussian joint log-density at the
pre-clip sample; the action is clipped to `[-1, 1]` only afterwards. -/
def WorldModel.sample_actions (m : WorldModel) (z : List ℝ)
    (params : Params) (std_scale : ℝ) (key : Key) : PolicyOutput :=
  let mean := m.policyMean z params
  let log_std := m.policyLogStd z params
  let std := m.policyStd z params std_scale
  let action := m.preclipSample z params std_scale key
  { action := action.map clip1
    mean := mean
    log_std := log_std
    log_prob := mvnDiagLogPdf mean std action }

/-- `WorldModel.V`, lines 301-309: apply the value ensemble (the key
drives its internal dropout) for per-member logits, decode each member
with the codec, return both. -/
def WorldModel.V (m : WorldModel) (z : List ℝ) (params : Params)
    (key : Key) : List ℝ × List (List ℝ) :=
  let logits := m.value_model.apply_fn params z key
  (logits.map (fun l => two_hot_inv l m.symlog_min m.symlog_max m.num_bins),
    logits)

/-- The simplex-block invariant: the vector decomposes into contiguous
blocks of length `S`, each summing to 1 with non-negative entries. -/
def IsSimplexBlocks (S : ℕ) (ys : List ℝ) : Prop :=
  ∃ bs : List (List ℝ), ys = bs.flatten ∧
    ∀ b ∈ bs, b.length = S ∧ b.sum = 1 ∧ ∀ x ∈ b, 0 ≤ x

/-- `Except.isOk` (not in this toolchain's core). -/
def exceptIsOk {ε α : Type} : Except ε α → Bool
  | .ok _ => true
  | .error _ => false

/-- A throwaway PRNG key for concrete instantiations. -/
def keyEx : Key := fun _ => 0

/-- A throwaway parameter structure for concrete instantiations. -/
def pEx : Params := []

/-- A throwaway observation for concrete instantiations. -/
def obsEx : Obs := []

/-- Trivial head modules for concrete instantiations of `create`. -/
def modsEx : HeadModules :=
  ⟨fun _ _ => [], fun _ => [], fun _ _ => [], fun _ => [], fun _ _ => [],
    fun _ => [], fun _ _ _ => [], fun _ _ => [], fun _ _ => [], fun _ => []⟩

/-- A trivial encoder head for concrete instantiations of `create`. -/
def encEx : TrainState (Params → Obs → Key → List ℝ) := ⟨fun _ _ _ => [], []⟩

/-- A concrete world model used to instantiate the universally
quantified theorems below at explicit inputs. -/
def mEx : WorldModel where
  encoder := ⟨fun _ _ _ => [1, 0, 2, 3], []⟩
  dynamics_model := ⟨fun _ _ => [4, 3, 2, 1], []⟩
  reward_model := ⟨fun _ _ => [0, 0], []⟩
  policy_model := ⟨fun _ _ => [0, 0], []⟩
  value_model := ⟨fun _ _ _ => [[0, 0]], []⟩
  target_value_model := ⟨fun _ _ _ => [[0, 0]], []⟩
  continue_model := none
  action_dim := 1
  latent_dim := 4
  simnorm_dim := 2
  num_value_nets := 1
  num_bins := 2
  symlog_min := -10
  symlog_max := 10
  predict_continues := false
  symlog_obs := false

end

theorem softmax_length (xs : List ℝ) : (softmax xs).length = xs.length := by
  simp [softmax]

theorem sum_map_div (l : List ℝ) (c : ℝ) :
    (l.map (fun x => x / c)).sum = l.sum / c := by
  induction l with
  | nil => simp
  | cons a l ih => simp [ih, add_div]

theorem expsum_pos (xs : List ℝ) (h : xs ≠ []) :
    0 < (xs.map Real.exp).sum := by
  cases xs with
  | nil => simp at h
  | cons a l =>
    simp only [List.map_cons, List.sum_cons]
    have h1 : 0 ≤ (l.map Real.exp).sum := by
      apply List.sum_nonneg
      intro x hx
      obtain ⟨y, _, rfl⟩ := List.mem_map.mp hx
      exact (Real.exp_pos y).le
    have h2 := Real.exp_pos a
    linarith

theorem softmax_sum (xs : List ℝ) (h : xs ≠ []) : (softmax xs).sum = 1 := by
  unfold softmax
  rw [sum_map_div]
  exact div_self (expsum_pos xs h).ne'

theorem softmax_nonneg (xs : List ℝ) (h : xs ≠ []) :
    ∀ x ∈ softmax xs, 0 ≤ x := by
  intro x hx
  unfold softmax at hx
  obtain ⟨e, he, rfl⟩ := List.mem_map.mp hx
  obtain ⟨y, _, rfl⟩ := List.mem_map.mp he
  exact div_nonneg (Real.exp_pos y).le (expsum_pos xs h).le

theorem simnorm_nil (S : ℕ) : simnorm S [] = [] := by
  rw [simnorm]
  simp

theorem simnorm_step (S : ℕ) (xs : List ℝ) (hS : S ≠ 0) (hxs : xs ≠ []) :
    simnorm S xs = softmax (xs.take S) ++ simnorm S (xs.drop S) := by
  rw [simnorm, if_neg (not_or.mpr ⟨hS, hxs⟩)]

theorem simnorm_length_aux :
    ∀ (n : ℕ) (S : ℕ) (xs : List ℝ), xs.length ≤ n →
      (simnorm S xs).length = xs.length := by
  intro n
  induction n with
  | zero =>
    intro S xs hlen
    have hx : xs = [] := List.length_eq_zero.mp (Nat.le_zero.mp hlen)
    subst hx
    rw [simnorm_nil]
  | succ n ih =>
    intro S xs hlen
    rcases eq_or_ne S 0 with rfl | hS
    · rw [simnorm]
      simp
    · rcases eq_or_ne xs [] with rfl | hne
      · rw [simnorm_nil]
      · have hpos : 0 < xs.length := List.length_pos.mpr hne
        have hSpos : 0 < S := Nat.pos_of_ne_zero hS
        have hrec := ih S (xs.drop S) (by rw [List.length_drop]; omega)
        rw [simnorm_step S xs hS hne, List.length_append, softmax_length,
          hrec, List.length_take, List.length_drop]
        omega

theorem simnorm_length (S : ℕ) (xs : List ℝ) :
    (simnorm S xs).length = xs.length :=
  simnorm_length_aux xs.length S xs le_rfl

theorem simnorm_blocks_aux :
    ∀ (n : ℕ) (S : ℕ) (xs : List ℝ), xs.length ≤ n → 0 < S →
      S ∣ xs.length → IsSimplexBlocks S (simnorm S xs) := by
  intro n
  induction n with
  | zero =>
    intro S xs hlen _ _
    have hx : xs = [] := List.length_eq_zero.mp (Nat.le_zero.mp hlen)
    subst hx
    exact ⟨[], by rw [simnorm_nil]; rfl, by simp⟩
  | succ n ih =>
    intro S xs hlen hS hdvd
    rcases eq_or_ne xs [] with rfl | hne
    · exact ⟨[], by rw [simnorm_nil]; rfl, by simp⟩
    · have hpos : 0 < xs.length := List.length_pos.mpr hne
      have hSle : S ≤ xs.length := Nat.le_of_dvd hpos hdvd
      have htake : (xs.take S).length = S := by
        rw [List.length_take]
        omega
      have htne : xs.take S ≠ [] := by
        intro h
        rw [h] at htake
        simp at htake
        omega
      obtain ⟨bs, hflat, hprop⟩ :=
        ih S (xs.drop S) (by rw [List.length_drop]; omega) hS
          (by rw [List.length_drop]; exact Nat.dvd_sub' hdvd (dvd_refl S))
      rw [simnorm_step S xs hS.ne' hne]
      refine ⟨softmax (xs.take S) :: bs, ?_, ?_⟩
      · rw [List.flatten_cons, hflat]
      · intro b hb
        rcases List.mem_cons.mp hb with rfl | hb'
        · exact ⟨by rw [softmax_length, htake], softmax_sum _ htne,
            softmax_nonneg _ htne⟩
        · exact hprop b hb'

theorem simnorm_isSimplexBlocks (S : ℕ) (xs : List ℝ) (hS : 0 < S)
    (hdvd : S ∣ xs.length) : IsSimplexBlocks S (simnorm S xs) :=
  simnorm_blocks_aux xs.length S xs le_rfl hS hdvd

theorem tanh_lt_one (x : ℝ) : Real.tanh x < 1 := by
  rw [Real.tanh_eq_sinh_div_cosh, div_lt_one (Real.cosh_pos x)]
  exact Real.sinh_lt_cosh x

theorem neg_one_lt_tanh (x : ℝ) : -1 < Real.tanh x := by
  have h := tanh_lt_one (-x)
  rw [Real.tanh_neg] at h
  linarith

theorem clip1_mem (x : ℝ) : -1 ≤ clip1 x ∧ clip1 x ≤ 1 :=
  ⟨le_min (by norm_num) (le_max_left _ _), min_le_left _ _⟩

theorem clip1_of_mem {x : ℝ} (h1 : -1 ≤ x) (h2 : x ≤ 1) : clip1 x = x := by
  unfold clip1
  rw [max_eq_right h1, min_eq_right h2]

theorem symlog_of_nonneg {x : ℝ} (h : 0 ≤ x) :
    symlog x = Real.log (1 + x) := by
  rcases eq_or_lt_of_le h with h' | hx
  · rw [← h']
    simp [symlog]
  · rw [symlog, Real.sign_of_pos hx, abs_of_pos hx, one_mul]

theorem symlog_of_nonpos {x : ℝ} (h : x ≤ 0) :
    symlog x = -Real.log (1 - x) := by
  rcases eq_or_lt_of_le h with rfl | hx
  · simp [symlog]
  · rw [symlog, Real.sign_of_neg hx, abs_of_neg hx, neg_one_mul,
      sub_eq_add_neg]

theorem symlog_le_symlog {a b : ℝ} (h : a ≤ b) : symlog a ≤ symlog b := by
  rcases le_total 0 a with ha | ha
  · rw [symlog_of_nonneg ha, symlog_of_nonneg (ha.trans h)]
    exact Real.log_le_log (by linarith) (by linarith)
  · rcases le_total 0 b with hb | hb
    · rw [symlog_of_nonpos ha, symlog_of_nonneg hb]
      have h1 : 0 ≤ Real.log (1 - a) := Real.log_nonneg (by linarith)
      have h2 : 0 ≤ Real.log (1 + b) := Real.log_nonneg (by linarith)
      linarith
    · rw [symlog_of_nonpos ha, symlog_of_nonpos hb]
      have h1 : Real.log (1 - b) ≤ Real.log (1 - a) :=
        Real.log_le_log (by linarith) (by linarith)
      linarith

theorem symexp_of_nonneg {x : ℝ} (h : 0 ≤ x) :
    symexp x = Real.exp x - 1 := by
  rcases eq_or_lt_of_le h with h' | hx
  · rw [← h']
    simp [symexp]
  · rw [symexp, Real.sign_of_pos hx, abs_of_pos hx, one_mul]

theorem symexp_of_nonpos {x : ℝ} (h : x ≤ 0) :
    symexp x = -(Real.exp (-x) - 1) := by
  rcases eq_or_lt_of_le h with rfl | hx
  · simp [symexp]
  · rw [symexp, Real.sign_of_neg hx, abs_of_neg hx, neg_one_mul]

theorem symexp_le_symexp {a b : ℝ} (h : a ≤ b) : symexp a ≤ symexp b := by
  rcases le_total 0 a with ha | ha
  · rw [symexp_of_nonneg ha, symexp_of_nonneg (ha.trans h)]
    have h1 := Real.exp_le_exp.mpr h
    linarith
  · rcases le_total 0 b with hb | hb
    · rw [symexp_of_nonpos ha, symexp_of_nonneg hb]
      have h1 : 1 ≤ Real.exp (-a) := Real.one_le_exp (by linarith)
      have h2 : 1 ≤ Real.exp b := Real.one_le_exp hb
      linarith
    · rw [symexp_of_nonpos ha, symexp_of_nonpos hb]
      have h1 : Real.exp (-b) ≤ Real.exp (-a) :=
        Real.exp_le_exp.mpr (by linarith)
      linarith

theorem symexp_symlog (x : ℝ) : symexp (symlog x) = x := by
  rcases le_total 0 x with hx | hx
  · rw [symlog_of_nonneg hx]
    have h1 : 0 ≤ Real.log (1 + x) := Real.log_nonneg (by linarith)
    rw [symexp_of_nonneg h1, Real.exp_log (by linarith)]
    ring
  · rw [symlog_of_nonpos hx]
    have h1 : 0 ≤ Real.log (1 - x) := Real.log_nonneg (by linarith)
    rw [symexp_of_nonpos (neg_nonpos.mpr h1), neg_neg,
      Real.exp_log (by linarith)]
    ring

theorem linspace_length (lo hi : ℝ) (n : ℕ) :
    (linspace lo hi n).length = n := by
  simp [linspace]

theorem linspace_mem {lo hi : ℝ} {n : ℕ} (hlo : lo ≤ hi) (hn : 2 ≤ n) :
    ∀ y ∈ linspace lo hi n, lo ≤ y ∧ y ≤ hi := by
  intro y hy
  simp only [linspace, List.mem_map, List.mem_range] at hy
  obtain ⟨i, hi', rfl⟩ := hy
  have hn1 : (1 : ℝ) ≤ (n : ℝ) - 1 := by
    have h2 : (2 : ℝ) ≤ (n : ℝ) := by exact_mod_cast hn
    linarith
  have hipos : (0 : ℝ) ≤ (i : ℝ) := Nat.cast_nonneg i
  have hin : (i : ℝ) ≤ (n : ℝ) - 1 := by
    have h3 : (i : ℝ) + 1 ≤ (n : ℝ) := by exact_mod_cast hi'
    linarith
  constructor
  · have h4 : 0 ≤ (hi - lo) * i / ((n : ℝ) - 1) :=
      div_nonneg (mul_nonneg (by linarith) hipos) (by linarith)
    linarith
  · have h5 : (hi - lo) * i / ((n : ℝ) - 1) ≤ hi - lo := by
      rw [div_le_iff₀ (by linarith : (0 : ℝ) < (n : ℝ) - 1)]
      calc (hi - lo) * i ≤ (hi - lo) * ((n : ℝ) - 1) :=
            mul_le_mul_of_nonneg_left hin (by linarith)
        _ = (hi - lo) * ((n : ℝ) - 1) := rfl
    linarith

theorem zipWith_mul_sum_le (ws : List ℝ) (m M : ℝ) :
    ∀ bs : List ℝ, ws.length = bs.length → (∀ w ∈ ws, 0 ≤ w) →
      (∀ y ∈ bs, m ≤ y ∧ y ≤ M) →
      m * ws.sum ≤ (List.zipWith (· * ·) ws bs).sum ∧
        (List.zipWith (· * ·) ws bs).sum ≤ M * ws.sum := by
  induction ws with
  | nil => intro bs _ _ _; simp
  | cons w ws ih =>
    intro bs hlen hw hb
    cases bs with
    | nil => simp at hlen
    | cons b bs =>
      simp only [List.zipWith_cons_cons, List.sum_cons]
      have hwb := hw w (by simp)
      have hbb := hb b (by simp)
      obtain ⟨ih1, ih2⟩ := ih bs (by simpa using hlen)
        (fun x hx => hw x (by simp [hx])) (fun y hy => hb y (by simp [hy]))
      constructor
      · have e1 : m * w ≤ w * b := by nlinarith [hbb.1, hbb.2]
        have e2 : m * (w + ws.sum) = m * w + m * ws.sum := by ring
        linarith
      · have e1 : w * b ≤ M * w := by nlinarith [hbb.1, hbb.2]
        have e2 : M * (w + ws.sum) = M * w + M * ws.sum := by ring
        linarith

theorem two_hot_inv_mem (logits : List ℝ) (lo hi : ℝ) (nb : ℕ)
    (hlo : lo ≤ hi) (hnb : 2 ≤ nb) (hlen : logits.length = nb) :
    lo ≤ two_hot_inv logits lo hi nb ∧ two_hot_inv logits lo hi nb ≤ hi := by
  have hne : logits ≠ [] := by
    intro h
    rw [h] at hlen
    simp at hlen
    omega
  have hslog : symlog lo ≤ symlog hi := symlog_le_symlog hlo
  have hlen2 : (softmax logits).length =
      (linspace (symlog lo) (symlog hi) nb).length := by
    rw [softmax_length, linspace_length, hlen]
  obtain ⟨h1, h2⟩ := zipWith_mul_sum_le (softmax logits) (symlog lo)
    (symlog hi) (linspace (symlog lo) (symlog hi) nb) hlen2
    (softmax_nonneg logits hne) (linspace_mem hslog hnb)
  rw [softmax_sum logits hne, mul_one] at h1 h2
  unfold two_hot_inv
  constructor
  · calc lo = symexp (symlog lo) := (symexp_symlog lo).symm
      _ ≤ _ := symexp_le_symexp h1
  · calc symexp _ ≤ symexp (symlog hi) := symexp_le_symexp h2
      _ = hi := symexp_symlog hi

theorem map_getD_range (l : List ℝ) :
    (List.range l.length).map (fun i => l.getD i 0) = l := by
  apply List.ext_getElem
  · simp
  · intro i h1 h2
    simp only [List.getElem_map, List.getElem_range]
    rw [List.getD_eq_getElem?_getD, List.getElem?_eq_getElem h2]
    rfl

theorem policyStd_zero_getD (m : WorldModel) (z : List ℝ) (p : Params)
    (i : ℕ) : (m.policyStd z p 0).getD i 0 = 0 := by
  unfold WorldModel.policyStd
  rcases lt_or_ge i ((m.policyLogStd z p).map
      (fun l => (0 : ℝ) * Real.exp l)).length with h | h
  · rw [List.getD_eq_getElem?_getD, List.getElem?_eq_getElem h]
    simp
  · rw [List.getD_eq_getElem?_getD, List.getElem?_eq_none h]
    rfl

theorem preclipSample_zero (m : WorldModel) (z : List ℝ) (p : Params)
    (k : Key) : m.preclipSample z p 0 k = m.policyMean z p := by
  unfold WorldModel.preclipSample gaussSample
  have h0 : ∀ i : ℕ, (m.policyStd z p 0).getD i 0 = 0 :=
    policyStd_zero_getD m z p
  simp only [h0, zero_mul, add_zero]
  exact map_getD_range _

/-- C1, counterexample: with `latent_dim = 5`, `simnorm_dim = 3` (not a
divisor) and `num_bins = 1 < 2`, `WorldModel.create` still returns a
`WorldModel` value — the claim that construction fails on every such
invalid configuration is false. -/
theorem C1_counterexample :
    ¬ (3 ∣ 5) ∧ (1 : ℕ) < 2 ∧
      exceptIsOk (WorldModel.create 2 encEx 5 0 3 1 (-10) 10 3 false false
        1 20 modsEx keyEx) = true :=
  ⟨by decide, by decide, rfl⟩

/-- C1, amended: `WorldModel.create` performs no configuration
validation; for every configuration — including those where
`latent_dim` is not divisible by `simnorm_dim` or `num_bins < 2` —
construction succeeds and returns a `WorldModel` value. -/
theorem C1_create_always_succeeds (action_dim : ℕ)
    (encoder : TrainState (Params → Obs → Key → List ℝ)) (latent_dim : ℕ)
    (value_dropout : ℝ) (num_value_nets num_bins : ℕ)
    (symlog_min symlog_max : ℝ) (simnorm_dim : ℕ)
    (predict_continues symlog_obs : Bool) (learning_rate max_grad_norm : ℝ)
    (mods : HeadModules) (key : Key) :
    ∃ w, WorldModel.create action_dim encoder latent_dim value_dropout
      num_value_nets num_bins symlog_min symlog_max simnorm_dim
      predict_continues symlog_obs learning_rate max_grad_norm mods key =
        .ok w :=
  ⟨_, rfl⟩

/-- C2: the scalar returned by `reward` is exactly the codec's decoding
of the logits returned with it, at the model's fixed
`(symlog_min, symlog_max, num_bins)`; likewise each per-member decoded
value returned by `V` is the decoding of the corresponding per-member
logits. -/
theorem C2_reward_V_decode_consistent (m : WorldModel) (z a : List ℝ)
    (p pv : Params) (k : Key) :
    (m.reward z a p).1 =
      two_hot_inv (m.reward z a p).2 m.symlog_min m.symlog_max m.num_bins ∧
    (m.V z pv k).1 = (m.V z pv k).2.map
      (fun l => two_hot_inv l m.symlog_min m.symlog_max m.num_bins) :=
  ⟨rfl, rfl⟩

/-- C3: when the encoder (resp. dynamics head) emits a vector of length
`latent_dim`, `simnorm_dim` is positive and divides `latent_dim`, the
output of `encode` (resp. `next`) has length `latent_dim` and satisfies
the simplex-block invariant: it is a concatenation of contiguous blocks
of `simnorm_dim` non-negative entries each summing to 1.  So `encode`
followed by `next` preserves the invariant. -/
theorem C3_encode_next_simplex_invariant (m : WorldModel) (obs : Obs)
    (p pd : Params) (k : Key) (z a : List ℝ)
    (hS : 0 < m.simnorm_dim)
    (hdvd : m.simnorm_dim ∣ m.latent_dim)
    (henc : (m.encoder.apply_fn p
      (if m.symlog_obs then obs.map (List.map symlog) else obs)
      k).length = m.latent_dim)
    (hdyn : (m.dynamics_model.apply_fn pd (z ++ a)).length = m.latent_dim) :
    (m.encode obs p k).length = m.latent_dim ∧
    IsSimplexBlocks m.simnorm_dim (m.encode obs p k) ∧
    (m.next z a pd).length = m.latent_dim ∧
    IsSimplexBlocks m.simnorm_dim (m.next z a pd) := by
  refine ⟨?_, ?_, ?_, ?_⟩
  · show (simnorm m.simnorm_dim (m.encoder.apply_fn p
      (if m.symlog_obs then obs.map (List.map symlog) else obs)
      k)).length = m.latent_dim
    rw [simnorm_length, henc]
  · show IsSimplexBlocks m.simnorm_dim (simnorm m.simnorm_dim
      (m.encoder.apply_fn p
        (if m.symlog_obs then obs.map (List.map symlog) else obs) k))
    exact simnorm_isSimplexBlocks _ _ hS (by rw [henc]; exact hdvd)
  · show (simnorm m.simnorm_dim
      (m.dynamics_model.apply_fn pd (z ++ a))).length = m.latent_dim
    rw [simnorm_length, hdyn]
  · show IsSimplexBlocks m.simnorm_dim (simnorm m.simnorm_dim
      (m.dynamics_model.apply_fn pd (z ++ a)))
    exact simnorm_isSimplexBlocks _ _ hS (by rw [hdyn]; exact hdvd)

/-- C3, witness: the invariant theorem instantiated at a concrete model
(`latent_dim = 4`, `simnorm_dim = 2`) and concrete inputs. -/
theorem C3_witness :
    (mEx.encode obsEx pEx keyEx).length = mEx.latent_dim ∧
    IsSimplexBlocks mEx.simnorm_dim (mEx.encode obsEx pEx keyEx) ∧
    (mEx.next [] [] pEx).length = mEx.latent_dim ∧
    IsSimplexBlocks mEx.simnorm_dim (mEx.next [] [] pEx) :=
  C3_encode_next_simplex_invariant mEx obsEx pEx pEx keyEx [] []
    (by show 0 < 2; decide) (by show 2 ∣ 4; decide) rfl rfl

/-- C4: with `std_scale = 0` the sampled action equals the returned
mean, for every latent, parameters and randomness key — sampling is
deterministic at zero scale. -/
theorem C4_zero_std_scale_action_eq_mean (m : WorldModel) (z : List ℝ)
    (p : Params) (k : Key) :
    (m.sample_actions z p 0 k).action = (m.sample_actions z p 0 k).mean := by
  show (m.preclipSample z p 0 k).map clip1 = m.policyMean z p
  rw [preclipSample_zero]
  unfold WorldModel.policyMean
  rw [List.map_map]
  congr 1
  funext x
  exact clip1_of_mem (neg_one_lt_tanh x).le (tanh_lt_one x).le

/-- C5: immediately after `WorldModel.create` returns, the target value
head's parameters are value-equal to the live value ensemble's
parameters. -/
theorem C5_target_params_equal_value_params (action_dim : ℕ)
    (encoder : TrainState (Params → Obs → Key → List ℝ)) (latent_dim : ℕ)
    (value_dropout : ℝ) (num_value_nets num_bins : ℕ)
    (symlog_min symlog_max : ℝ) (simnorm_dim : ℕ)
    (predict_continues symlog_obs : Bool) (learning_rate max_grad_norm : ℝ)
    (mods : HeadModules) (key : Key) :
    ∃ w, WorldModel.create action_dim encoder latent_dim value_dropout
      num_value_nets num_bins symlog_min symlog_max simnorm_dim
      predict_continues symlog_obs learning_rate max_grad_norm mods key =
        .ok w ∧
      w.target_value_model.params = w.value_model.params :=
  ⟨_, rfl, rfl⟩

/-- C6: every coordinate of the returned action and of the returned
(tanh-squashed) mean lies in `[-1, 1]`, and every coordinate of the
returned `log_std` lies in `[MIN_LOG_STD, MAX_LOG_STD] = [-5, 1]`,
obtained from the raw head output by the rescaling
`MIN_LOG_STD + (MAX_LOG_STD - MIN_LOG_STD) * 0.5 * (tanh · + 1)`. -/
theorem C6_policy_output_bounds (m : WorldModel) (z : List ℝ) (p : Params)
    (s : ℝ) (k : Key) :
    (∀ x ∈ (m.sample_actions z p s k).action, -1 ≤ x ∧ x ≤ 1) ∧
    (∀ x ∈ (m.sample_actions z p s k).mean, -1 ≤ x ∧ x ≤ 1) ∧
    (∀ x ∈ (m.sample_actions z p s k).log_std,
      MIN_LOG_STD ≤ x ∧ x ≤ MAX_LOG_STD) ∧
    (m.sample_actions z p s k).log_std =
      ((m.policyRaw z p).drop ((m.policyRaw z p).length / 2)).map
        (fun l => MIN_LOG_STD +
          (MAX_LOG_STD - MIN_LOG_STD) * (0.5 * (Real.tanh l + 1))) := by
  refine ⟨?_, ?_, ?_, rfl⟩
  · intro x hx
    obtain ⟨y, _, rfl⟩ := List.mem_map.mp hx
    exact clip1_mem y
  · intro x hx
    obtain ⟨y, _, rfl⟩ := List.mem_map.mp hx
    exact ⟨(neg_one_lt_tanh y).le, (tanh_lt_one y).le⟩
  · intro x hx
    obtain ⟨y, _, rfl⟩ := List.mem_map.mp hx
    have h1 := neg_one_lt_tanh y
    have h2 := tanh_lt_one y
    unfold MIN_LOG_STD MAX_LOG_STD
    constructor <;> nlinarith

/-- C7: the returned `log_prob` is the joint log-density of the
diagonal-covariance Gaussian — with the returned mean and the scaled
standard deviation — evaluated at the pre-clip sample; the action is the
elementwise clip of that same pre-clip sample, and no correction or
re-normalization for the clip enters the density. -/
theorem C7_log_prob_is_preclip_density (m : WorldModel) (z : List ℝ)
    (p : Params) (s : ℝ) (k : Key) :
    (m.sample_actions z p s k).log_prob =
      mvnDiagLogPdf (m.policyMean z p) (m.policyStd z p s)
        (m.preclipSample z p s k) ∧
    (m.sample_actions z p s k).action =
      (m.preclipSample z p s k).map clip1 :=
  ⟨rfl, rfl⟩

/-- C8: for every logits vector of width `num_bins ≥ 2` and bounds
`lo ≤ hi`, the codec's decoded scalar lies in `[lo, hi]`; consequently
the scalar returned by `reward` and every per-member decoded value
returned by `V` lie in `[symlog_min, symlog_max]` whenever the heads
emit `num_bins`-wide logits. -/
theorem C8_decode_within_bounds (logits : List ℝ) (lo hi : ℝ) (nb : ℕ)
    (m : WorldModel) (z a : List ℝ) (p pv : Params) (k : Key)
    (hlo : lo ≤ hi) (hnb : 2 ≤ nb) (hlen : logits.length = nb)
    (hm : m.symlog_min ≤ m.symlog_max) (hmb : 2 ≤ m.num_bins)
    (hrlen : (m.reward_model.apply_fn p (z ++ a)).length = m.num_bins)
    (hvlen : ∀ l ∈ m.value_model.apply_fn pv z k, l.length = m.num_bins) :
    (lo ≤ two_hot_inv logits lo hi nb ∧ two_hot_inv logits lo hi nb ≤ hi) ∧
    (m.symlog_min ≤ (m.reward z a p).1 ∧
      (m.reward z a p).1 ≤ m.symlog_max) ∧
    (∀ v ∈ (m.V z pv k).1, m.symlog_min ≤ v ∧ v ≤ m.symlog_max) := by
  refine ⟨two_hot_inv_mem logits lo hi nb hlo hnb hlen,
    two_hot_inv_mem _ _ _ _ hm hmb hrlen, ?_⟩
  intro v hv
  obtain ⟨l, hl, rfl⟩ := List.mem_map.mp hv
  exact two_hot_inv_mem _ _ _ _ hm hmb (hvlen l hl)

/-- C8, witness: the bound theorem instantiated at the uniform logits
`[0, 0]`, bounds `[-10, 10]`, `num_bins = 2`, and the concrete model. -/
theorem C8_witness :
    ((-10 : ℝ) ≤ two_hot_inv [0, 0] (-10) 10 2 ∧
      two_hot_inv [0, 0] (-10) 10 2 ≤ 10) ∧
    (mEx.symlog_min ≤ (mEx.reward [] [] pEx).1 ∧
      (mEx.reward [] [] pEx).1 ≤ mEx.symlog_max) ∧
    (∀ v ∈ (mEx.V [] pEx keyEx).1,
      mEx.symlog_min ≤ v ∧ v ≤ mEx.symlog_max) :=
  C8_decode_within_bounds [0, 0] (-10) 10 2 mEx [] [] pEx pEx keyEx
    (by norm_num) (by decide) rfl (by show (-10 : ℝ) ≤ 10; norm_num)
    (by show 2 ≤ 2; decide) rfl
    (by
      intro l hl
      have h : l = [0, 0] := List.mem_singleton.mp hl
      rw [h]
      rfl)

/-- C9: `encode` symlog-transforms every observation leaf exactly when
the model was built with `symlog_obs`, feeds the result (otherwise the
unchanged observation) to the encoder with the key driving its internal
stochastic regularization, and applies the simplex projector with group
size `simnorm_dim`. -/
theorem C9_encode_pipeline (m : WorldModel) (obs : Obs) (p : Params)
    (k : Key) :
    m.encode obs p k = simnorm m.simnorm_dim (m.encoder.apply_fn p
      (if m.symlog_obs then obs.map (List.map symlog) else obs) k) :=
  rfl

/-- C10: two calls to `WorldModel.create` with identical arguments
except for `predict_continues` initialize identical parameters for the
dynamics, reward, policy, value-ensemble and target-value heads: the
root key is split into the same five sub-keys in the fixed order
(dynamics, reward, value, policy, continue) in both cases, so the flag
influences no other head's initialization. -/
theorem C10_predict_continues_noninterference (action_dim : ℕ)
    (encoder : TrainState (Params → Obs → Key → List ℝ)) (latent_dim : ℕ)
    (value_dropout : ℝ) (num_value_nets num_bins : ℕ)
    (symlog_min symlog_max : ℝ) (simnorm_dim : ℕ)
    (b1 b2 symlog_obs : Bool) (learning_rate max_grad_norm : ℝ)
    (mods : HeadModules) (key : Key) :
    ∃ w1 w2,
      WorldModel.create action_dim encoder latent_dim value_dropout
        num_value_nets num_bins symlog_min symlog_max simnorm_dim
        b1 symlog_obs learning_rate max_grad_norm mods key = .ok w1 ∧
      WorldModel.create action_dim encoder latent_dim value_dropout
        num_value_nets num_bins symlog_min symlog_max simnorm_dim
        b2 symlog_obs learning_rate max_grad_norm mods key = .ok w2 ∧
      w1.dynamics_model.params = w2.dynamics_model.params ∧
      w1.reward_model.params = w2.reward_model.params ∧
      w1.policy_model.params = w2.policy_model.params ∧
      w1.value_model.params = w2.value_model.params ∧
      w1.target_value_model.params = w2.target_value_model.params :=
  ⟨_, _, rfl, rfl, rfl, rfl, rfl, rfl, rfl⟩

end BMPC
